import Mathlib

/-!
Verification of the transcript segmentation and hierarchical templating engine
of the english-learning-player repository (`batch_processor.py`,
`toeic_smart_template.py`, `toeic_template.py`, `app.py`).

Modelling choices:
* Times are rationals (`Rat`); the source uses Python floats, but every
  threshold comparison and division analysed here is exact at the inputs used.
* The persisted hierarchy of one Media row is a `Hier` (a list of chapters,
  each holding scenes, each holding sentence rows): the engine only ever
  touches the rows belonging to the media id it was invoked for, so the rest
  of the database is irrelevant frame.
* `reorganize_chapters_scenes` runs its deletes and inserts on one sqlite
  connection; they are buffered until `conn.commit()` and dropped by
  `conn.rollback()` in its exception handler.  `apply_toeic_lc_template`
  additionally calls `toeic_smart_template.apply_toeic_smart_template`, which
  opens a fresh connection to the same database file: that connection reads
  the last committed state, and its first write statement raises
  `database is locked` whenever the outer connection still holds its
  uncommitted write transaction (which it always does, having executed the
  three DELETE statements).  The handler in `apply_toeic_lc_template` then
  re-deletes and applies the general template on the outer cursor, swallowing
  any further failure with a bare `except: pass`.  `Inj` injects storage
  failures at the two places the error-handling claims are about.
* `detect_silence_breaks` probes the audio file; its result is passed in as
  the `breaks` parameter (the audio oracle) wherever the auto template runs.
-/

set_option maxRecDepth 10000

structure Sent where
  english : String
  korean : String
  start_time : Rat
  end_time : Rat
  ord : Nat
deriving DecidableEq, Repr

structure SentRow where
  english : String
  korean : String
  start_time : Rat
  end_time : Rat
  bookmark : Nat
  ord : Nat
deriving DecidableEq, Repr

structure Scene where
  title : String
  start_time : Rat
  end_time : Rat
  ord : Nat
  sents : List SentRow
deriving DecidableEq, Repr

structure Chapter where
  title : String
  start_time : Rat
  end_time : Rat
  ord : Nat
  scenes : List Scene
deriving DecidableEq, Repr

abbrev Hier := List Chapter

def dfltSent : Sent := ⟨"", "", 0, 0, 0⟩

/-- Every `INSERT INTO Sentence` statement in the source passes the literal
`0` for the `bookmark` column; this is that row constructor. -/
def sentRow (s : Sent) : SentRow :=
  ⟨s.english, s.korean, s.start_time, s.end_time, 0, s.ord⟩

/-- The idiom `sentences[-1]['end_time'] if sentences else d` used by every
template to obtain the total duration. -/
def lastEndOr (sents : List Sent) (d : Rat) : Rat :=
  match sents.getLast? with
  | some s => s.end_time
  | none => d

/-- Python slice `xs[a:b]`. -/
def pySlice (xs : List α) (a b : Nat) : List α := (xs.drop a).take (b - a)

/-- Python `range(0, len, n)`: the loop indices of the fixed-size scene
chunking loops (`for scene_idx in range(0, len(...), scene_size)`). -/
def sliceIdxs (n len : Nat) : List Nat := (List.range ((len + n - 1) / n)).map (· * n)

/-- `for i, x in enumerate(xs)` idiom, carrying the running index. -/
def enumIdxGo (f : Nat → α → β) : Nat → List α → List β
  | _, [] => []
  | i, x :: xs => f i x :: enumIdxGo f (i + 1) xs

def enumIdx (f : Nat → α → β) (xs : List α) : List β := enumIdxGo f 0 xs

/-- The fixed-size scene chunking loop shared verbatim (modulo scene size `n`
and title text) by the general / TOEIC-RC / conversation / audiobook
templates and the large-group branch of the auto template: slices
`xs[i:i+n]` for `i in range(0, len(xs), n)`, each slice becoming one scene
with order `i // n + 1`, time bounds taken from its first and last
sentence, and every sentence row inserted with `bookmark = 0`. -/
def mkScenes (n : Nat) (mkTitle : Nat → String) (xs : List Sent) : List Scene :=
  (sliceIdxs n xs.length).map fun i =>
    let sc := (xs.drop i).take n
    ⟨mkTitle (i / n + 1), (sc.headD dfltSent).start_time, (sc.getLastD dfltSent).end_time,
      i / n + 1, sc.map sentRow⟩

/-- `apply_general_template`: time-sliced chapters (6 / 4 / 2 by duration),
scenes of 15 sentences. -/
def apply_general_template (sents : List Sent) : Hier :=
  let total := lastEndOr sents 60
  let cnt : Nat := if 3600 < total then 6 else if 1800 < total then 4 else 2
  let cd := total / (cnt : Rat)
  (List.range cnt).map fun (i : Nat) =>
    let st := (i : Rat) * cd
    let en := ((i : Rat) + 1) * cd
    let cs := sents.filter fun s => decide (st ≤ s.start_time ∧ s.start_time < en)
    ⟨"강의 " ++ toString (i + 1), st, en, i + 1,
      mkScenes 15 (fun k => "섹션 " ++ toString k) cs⟩

/-- `apply_toeic_rc_template`: three fixed thirds, scenes of 10 sentences. -/
def apply_toeic_rc_template (sents : List Sent) : Hier :=
  let total := lastEndOr sents 60
  let pd := total / 3
  enumIdx (fun i title =>
    let st := (i : Rat) * pd
    let en := ((i : Rat) + 1) * pd
    let ps := sents.filter fun s => decide (st ≤ s.start_time ∧ s.start_time < en)
    ⟨title, st, en, i + 1, mkScenes 10 (fun k => "Section " ++ toString k) ps⟩)
    ["Part 5 - Grammar", "Part 6 - Text Completion", "Part 7 - Reading Comprehension"]

/-- Python `int()` on a nonnegative-or-negative rational (truncation toward
zero), as used for `int(total_duration / segment_duration)`. -/
def pyInt (q : Rat) : Int := if q < 0 then -((-q).floor) else q.floor

/-- `apply_conversation_template`: 5-minute segments, scenes of 8 sentences. -/
def apply_conversation_template (sents : List Sent) : Hier :=
  let total := lastEndOr sents 60
  let cnt : Nat := (max 1 (pyInt (total / 300))).toNat
  (List.range cnt).map fun (i : Nat) =>
    let st := (i : Rat) * 300
    let en := min (((i : Rat) + 1) * 300) total
    let cs := sents.filter fun s => decide (st ≤ s.start_time ∧ s.start_time < en)
    ⟨"대화 세그먼트 " ++ toString (i + 1), st, en, i + 1,
      mkScenes 8 (fun k => "턴 " ++ toString k) cs⟩

/-- `apply_audiobook_template`: 15-minute chapters, scenes of 20 sentences. -/
def apply_audiobook_template (sents : List Sent) : Hier :=
  let total := lastEndOr sents 60
  let cnt : Nat := (max 1 (pyInt (total / 900))).toNat
  (List.range cnt).map fun (i : Nat) =>
    let st := (i : Rat) * 900
    let en := min (((i : Rat) + 1) * 900) total
    let cs := sents.filter fun s => decide (st ≤ s.start_time ∧ s.start_time < en)
    ⟨"챕터 " ++ toString (i + 1), st, en, i + 1,
      mkScenes 20 (fun k => "섹션 " ++ toString k) cs⟩

/-- `gap = sentences[i]['start_time'] - sentences[i-1]['end_time']` in
`apply_manual_template`. -/
def gapAt (xs : List Sent) (i : Nat) : Rat :=
  (xs.getD i dfltSent).start_time - (xs.getD (i - 1) dfltSent).end_time

/-- Indices `i in range(1, len(sentences))` with `gap >= 10.0`. -/
def manual_chapter_breaks (xs : List Sent) : List Nat :=
  (List.range' 1 (xs.length - 1)).filter fun i => decide (10 ≤ gapAt xs i)

/-- Indices with `gap < 10.0` (the `elif`) and `gap >= 3.0`. -/
def manual_scene_breaks (xs : List Sent) : List Nat :=
  (List.range' 1 (xs.length - 1)).filter fun i =>
    decide (¬ 10 ≤ gapAt xs i ∧ 3 ≤ gapAt xs i)

/-- The chapter-grouping loop of `apply_manual_template`: for each
`break_idx in chapter_breaks + [len(sentences)]` take the slice from the
running start, skip it if empty, and attach the chapter-relative scene
break indices. -/
def manualGroupsGo (xs : List Sent) (sbs : List Nat) :
    Nat → List Nat → List (List Sent × List Nat)
  | _, [] => []
  | start, b :: bs =>
    let g := pySlice xs start b
    let rest := manualGroupsGo xs sbs b bs
    if g.isEmpty then rest
    else (g, (sbs.filter fun t => decide (start ≤ t ∧ t < b)).map (· - start)) :: rest

/-- The scene-grouping loop of `apply_manual_template` (slices between
consecutive scene break indices, empty slices skipped). -/
def slicesGo (xs : List α) : Nat → List Nat → List (List α)
  | _, [] => []
  | start, b :: bs =>
    let g := pySlice xs start b
    let rest := slicesGo xs b bs
    if g.isEmpty then rest else g :: rest

def mkManualScene (si : Nat) (sg : List Sent) : Scene :=
  ⟨"Scene " ++ toString (si + 1), (sg.headD dfltSent).start_time,
    (sg.getLastD dfltSent).end_time, si + 1, sg.map sentRow⟩

def mkManualChapter (ci : Nat) (p : List Sent × List Nat) : Chapter :=
  ⟨"Chapter " ++ toString (ci + 1), (p.1.headD dfltSent).start_time,
    (p.1.getLastD dfltSent).end_time, ci + 1,
    enumIdx mkManualScene (slicesGo p.1 0 (p.2 ++ [p.1.length]))⟩

/-- `apply_manual_template`: gap-threshold chapter/scene splitting
(`if not sentences: return` inserts nothing). -/
def apply_manual_template (xs : List Sent) : Hier :=
  if xs.isEmpty then []
  else
    enumIdx mkManualChapter
      (manualGroupsGo xs (manual_scene_breaks xs) 0 (manual_chapter_breaks xs ++ [xs.length]))

structure BreakGroup where
  start_time : Rat
  end_time : Rat
  sents : List Sent
deriving DecidableEq, Repr

/-- Consecutive pairs `(break_points[i], break_points[i+1])`. -/
def ratPairs : List Rat → List (Rat × Rat)
  | a :: b :: rest => (a, b) :: ratPairs (b :: rest)
  | _ => []

/-- `group_sentences_by_breaks`: a sentence joins the interval if it is
contained in it, or (the `elif`) if it merely overlaps it; empty groups
are skipped. -/
def group_sentences_by_breaks (sents : List Sent) (breaks : List Rat) : List BreakGroup :=
  (ratPairs breaks).filterMap fun p =>
    let g := sents.filter fun s =>
      decide ((p.1 ≤ s.start_time ∧ s.end_time ≤ p.2) ∨
        (s.start_time < p.2 ∧ p.1 < s.end_time))
    if g.isEmpty then none else some ⟨p.1, p.2, g⟩

/-- The scene construction of `apply_auto_template` for one silence group:
groups of more than 20 sentences are chunked into scenes of 10, smaller
groups become a single scene whose time bounds are the group's break
interval bounds. -/
def autoScenes (g : BreakGroup) : List Scene :=
  if 20 < g.sents.length then mkScenes 10 (fun k => "Scene " ++ toString k) g.sents
  else [⟨"Scene 1", g.start_time, g.end_time, 1, g.sents.map sentRow⟩]

/-- `apply_auto_template` given the break points computed by
`detect_silence_breaks` on the audio file. -/
def apply_auto_template (breaks : List Rat) (sents : List Sent) : Hier :=
  let groups := group_sentences_by_breaks sents breaks
  if groups.isEmpty then
    let d := lastEndOr sents 60
    [⟨"전체", 0, d, 1, [⟨"전체", 0, d, 1, sents.map sentRow⟩]⟩]
  else
    enumIdx (fun ci g =>
      ⟨"Chapter " ++ toString (ci + 1), g.start_time, g.end_time, ci + 1, autoScenes g⟩) groups

def chapterHasSentences (c : Chapter) : Bool := c.scenes.any fun sc => !sc.sents.isEmpty

/-- The temporary single-chapter / single-scene structure that
`apply_toeic_lc_template` inserts before invoking the smart template. -/
def tempHier (sents : List Sent) : Hier :=
  let d := lastEndOr sents 60
  [⟨"임시", 0, d, 1, [⟨"임시", 0, d, 1, sents.map sentRow⟩]⟩]

/-- Net effect of `apply_toeic_lc_template` on the outer transaction.  It
inserts the temporary hierarchy on the outer cursor, then calls
`apply_toeic_smart_template`, which opens its own connection: that
connection sees only the last committed state, and the first write it
attempts (it writes exactly for the committed chapters that contain
sentences) raises `database is locked` because the outer connection holds
an uncommitted write transaction.  On that exception the handler deletes
the temporary rows again and applies the general template on the outer
cursor; a storage failure there (`fallback_raises`) is swallowed by the
bare `except: pass`, leaving only the deletion in the transaction. -/
def apply_toeic_lc_template (committed : Hier) (sents : List Sent)
    (fallback_raises : Bool) : Hier :=
  if committed.all fun c => !chapterHasSentences c then tempHier sents
  else if fallback_raises then []
  else apply_general_template sents

/-- Storage failure injection, matching the spec's `PersistenceFailure`
class: `template_raises` makes the first insert of the selected
(non-TOEIC-LC) template raise, which propagates to
`reorganize_chapters_scenes`'s handler; `fallback_raises` makes the first
insert of `apply_toeic_lc_template`'s internal general fallback raise,
which its bare `except` swallows. -/
structure Inj where
  template_raises : Bool
  fallback_raises : Bool
deriving DecidableEq, Repr

def noInj : Inj := ⟨false, false⟩

/-- `reorganize_chapters_scenes`: delete the media's hierarchy, dispatch on
the template name (unknown names fall through to the auto branch), commit;
on an exception, roll back so the committed state is unchanged.  The
returned value is the committed hierarchy of the media after the call. -/
def reorganize_chapters_scenes (committed : Hier) (template : String)
    (breaks : List Rat) (sents : List Sent) (inj : Inj) : Hier :=
  if template = "toeic_lc" then apply_toeic_lc_template committed sents inj.fallback_raises
  else if inj.template_raises then committed
  else if template = "toeic_rc" then apply_toeic_rc_template sents
  else if template = "general" then apply_general_template sents
  else if template = "conversation" then apply_conversation_template sents
  else if template = "audiobook" then apply_audiobook_template sents
  else if template = "manual" then apply_manual_template sents
  else apply_auto_template breaks sents

/-- `toggle_bookmark` from `app.py`: flip the bookmark flag of the sentence
row with the given id (rows are identified here by their `order` value). -/
def toggle_bookmark (h : Hier) (sid : Nat) : Hier :=
  h.map fun c =>
    { c with scenes := c.scenes.map fun sc =>
        { sc with sents := sc.sents.map fun r =>
            if r.ord = sid then
              { r with bookmark := if r.bookmark ≠ 0 then 0 else 1 }
            else r } }

/-- A scene candidate of the smart template
(`{title, sentences, start_time, end_time}` dict). -/
structure SmartScene where
  title : String
  sents : List Sent
  start_time : Rat
  end_time : Rat
deriving DecidableEq, Repr

/-- A scene boundary record produced by
`TOEICSmartTemplate.find_scene_boundaries`. -/
structure SceneBoundary where
  title : String
  start_index : Nat
  end_index : Nat
  start_time : Rat
  end_time : Rat
deriving DecidableEq, Repr

/-- `TOEICSmartTemplate.group_sentences_by_scenes`: with no boundaries the
whole input becomes a single "All Sentences" scene; otherwise each
boundary's index range becomes a scene. -/
def group_sentences_by_scenes (sents : List Sent) (bds : List SceneBoundary) :
    List SmartScene :=
  if bds.isEmpty then
    [⟨"All Sentences", sents, (sents.headD dfltSent).start_time,
      (sents.getLastD dfltSent).end_time⟩]
  else
    bds.filterMap fun b =>
      let sg := pySlice sents b.start_index (b.end_index + 1)
      if sg.isEmpty then none else some ⟨b.title, sg, b.start_time, b.end_time⟩

/-- One entry of `TOEICTemplate.structure` (`toeic_template.py`). -/
structure PartCfg where
  title : String
  total_time : Rat
  scene_titles : List String
deriving DecidableEq, Repr

/-- `TOEICTemplate.structure`: the four listening parts with their nominal
durations (summing to 5010 seconds) and fixed scene title lists. -/
def toeicStructure : List PartCfg :=
  [⟨"Part 1 - 사진 묘사 (Photographs)", 120, ["사진 1-2", "사진 3-4", "사진 5-6"]⟩,
   ⟨"Part 2 - 응답 (Question-Response)", 450,
     (List.range 5).map fun k => "문제 " ++ toString (5 * k + 1) ++ "-" ++ toString (5 * k + 5)⟩,
   ⟨"Part 3 - 대화 (Conversations)", 2340,
     (List.range 13).map fun k => "대화 " ++ toString (k + 1)⟩,
   ⟨"Part 4 - 담화 (Talks)", 2100,
     (List.range 10).map fun k => "담화 " ++ toString (k + 1)⟩]

/-- `TOEICTemplate.get_time_boundaries`: cumulative part boundaries scaled
by `duration / 5010`. -/
def toeicBoundariesGo (ratio : Rat) : Rat → List PartCfg → List (PartCfg × Rat × Rat)
  | _, [] => []
  | t, p :: ps => (p, t, t + p.total_time * ratio) :: toeicBoundariesGo ratio (t + p.total_time * ratio) ps

/-- `TOEICTemplate.apply_template_to_sentences`: per part, the sentences
fully contained in the part's time window, split into
`len(part_sentences) // len(scenes)`-sized scenes with the last scene
taking the remainder; empty scenes are skipped. -/
def apply_template_to_sentences (sents : List Sent) (dur : Rat) :
    List (PartCfg × Rat × Rat × List SmartScene) :=
  let ratio := dur / 5010
  (toeicBoundariesGo ratio 0 toeicStructure).map fun q =>
    let ps := sents.filter fun s =>
      decide (q.2.1 ≤ s.start_time ∧ s.end_time ≤ q.2.2)
    let nper := ps.length / q.1.scene_titles.length
    let scenes := (enumIdx (fun i title =>
        let start_idx := i * nper
        let end_idx := if i = q.1.scene_titles.length - 1 then ps.length else start_idx + nper
        (title, pySlice ps start_idx end_idx)) q.1.scene_titles).filterMap fun r =>
          if r.2.isEmpty then none
          else some (⟨r.1, r.2, (r.2.headD dfltSent).start_time,
            (r.2.getLastD dfltSent).end_time⟩ : SmartScene)
    (q.1, q.2.1, q.2.2, scenes)

/-- The insertion loop of `apply_toeic_template_to_media`: parts whose scene
list is empty are skipped (`continue`) while the chapter order is still
taken from the part's position (`part_order + 1`). -/
def apply_toeic_template_to_media (dur : Rat) (sents : List Sent) : Hier :=
  (enumIdx (fun part_order pd => (part_order, pd)) (apply_template_to_sentences sents dur)).filterMap
    fun r =>
      if r.2.2.2.2.isEmpty then none
      else some ⟨r.2.1.title, r.2.2.1, r.2.2.2.1, r.1 + 1,
        enumIdx (fun so sc =>
          ⟨sc.title, sc.start_time, sc.end_time, so + 1, sc.sents.map sentRow⟩) r.2.2.2.2⟩

/-- All sentence rows of a hierarchy in storage order. -/
def allSentRows (h : Hier) : List SentRow := (h.map fun c => (c.scenes.map (·.sents)).flatten).flatten

/-- The number of scenes of `h` whose sentence list contains the row `r`. -/
def scenesContaining (h : Hier) (r : SentRow) : Nat :=
  (h.map fun c => (c.scenes.filter fun sc => decide (r ∈ sc.sents)).length).sum

/-- Chapter orders are `1..C` and scene orders within each chapter `1..S_c`. -/
def ordsContiguous (h : Hier) : Prop :=
  h.map (·.ord) = List.range' 1 h.length ∧
    ∀ c ∈ h, c.scenes.map (·.ord) = List.range' 1 c.scenes.length

instance (h : Hier) : Decidable (ordsContiguous h) := by
  unfold ordsContiguous; infer_instance

/-- Start offsets of consecutive blocks of the given sizes. -/
def startsFrom (off : Nat) : List Nat → List Nat
  | [] => []
  | s :: ss => off :: startsFrom (off + s) ss

def sceneSize (sc : Scene) : Nat := sc.sents.length

def chapterSize (c : Chapter) : Nat := (c.scenes.map sceneSize).sum

/-- Index (into the concatenation of all sentence rows) at which each
chapter starts. -/
def chapterStartIdxs (h : Hier) : List Nat := startsFrom 0 (h.map chapterSize)

def sceneStartIdxsGo : Nat → Hier → List Nat
  | _, [] => []
  | off, c :: cs => startsFrom off (c.scenes.map sceneSize) ++ sceneStartIdxsGo (off + chapterSize c) cs

/-- Index (into the concatenation of all sentence rows) at which each scene
starts. -/
def sceneStartIdxs (h : Hier) : List Nat := sceneStartIdxsGo 0 h

/-- A concrete sentence span used by witnesses and counterexamples. -/
def mkSent (a b : Rat) (o : Nat) : Sent := ⟨"s" ++ toString o, "", a, b, o⟩

/-- Every Scene's time bounds are derived from its contained sentences:
bounds enclose all rows and are attained by some row. -/
def sceneBoundsFromContent (h : Hier) : Prop :=
  ∀ c ∈ h, ∀ sc ∈ c.scenes,
    (∀ r ∈ sc.sents, sc.start_time ≤ r.start_time ∧ r.end_time ≤ sc.end_time) ∧
    (∃ r ∈ sc.sents, r.start_time = sc.start_time) ∧
    (∃ r ∈ sc.sents, r.end_time = sc.end_time)

instance (h : Hier) : Decidable (sceneBoundsFromContent h) := by
  unfold sceneBoundsFromContent; infer_instance

/-- Every sentence row of the hierarchy carries a cleared bookmark flag. -/
def allBookmarksZero (h : Hier) : Prop := ∀ r ∈ allSentRows h, r.bookmark = 0

instance (h : Hier) : Decidable (allBookmarksZero h) := by
  unfold allBookmarksZero; infer_instance

/-- C2 (counterexample): with a previously committed hierarchy containing a
sentence, a `toeic_lc` run whose internal general fallback hits a storage
failure commits the destructive delete with nothing inserted: the prior
hierarchy (nonempty) is destroyed even though no valid new grouping was
inserted, because `apply_toeic_lc_template` swallows the fallback failure
with a bare `except: pass` and `reorganize_chapters_scenes` then commits. -/
theorem c2_counterexample :
    reorganize_chapters_scenes
        [⟨"A", 0, 10, 1, [⟨"S", 0, 10, 1, [sentRow (mkSent 0 10 1)]⟩]⟩]
        "toeic_lc" [] [mkSent 0 1 2] ⟨false, true⟩ = [] ∧
      ([⟨"A", 0, 10, 1, [⟨"S", 0, 10, 1, [sentRow (mkSent 0 10 1)]⟩]⟩] : Hier) ≠ [] :=
  ⟨by apply of_decide_eq_true; with_unfolding_all rfl, by decide⟩

/-- C2 (amended): when the selected template itself raises a storage error,
`reorganize_chapters_scenes` catches it and rolls the transaction back, so
the previously committed hierarchy is untouched — for every template except
`toeic_lc`, whose internal handler can instead swallow a fallback failure
and commit the bare deletion. -/
theorem reorganize_rollback_preserves (committed : Hier) (template : String)
    (breaks : List Rat) (sents : List Sent) (fb : Bool)
    (h : template ≠ "toeic_lc") :
    reorganize_chapters_scenes committed template breaks sents ⟨true, fb⟩ = committed := by
  simp [reorganize_chapters_scenes, h]

theorem reorganize_rollback_preserves_witness :
    reorganize_chapters_scenes [⟨"A", 0, 10, 1, []⟩] "general" [] [] ⟨true, false⟩ =
      [⟨"A", 0, 10, 1, []⟩] :=
  reorganize_rollback_preserves _ "general" _ _ _ (by decide)

/-- C3 (counterexample): `toeic_lc` on a media whose committed hierarchy is
empty persists the temporary single-chapter structure, which is not the
general template's output; and the smart template's
`group_sentences_by_scenes` with zero detected boundaries (the zero-marker
case) returns a single "All Sentences" scene, not an empty result. -/
theorem c3_counterexample :
    reorganize_chapters_scenes [] "toeic_lc" [0, 10] [mkSent 0 1 1, mkSent 2 3 2] noInj ≠
        reorganize_chapters_scenes [] "general" [0, 10] [mkSent 0 1 1, mkSent 2 3 2] noInj ∧
      group_sentences_by_scenes [mkSent 0 1 1, mkSent 2 3 2] [] ≠ [] :=
  ⟨by apply of_decide_eq_true; with_unfolding_all rfl, by decide⟩

/-- C3 (amended): whenever the committed hierarchy has a chapter containing
sentences (always the case in the upload pipeline, which commits a default
hierarchy first), a `toeic_lc` run ends up committing exactly the general
template's output — for any input, with or without "Part N" markers —
because the smart template's second connection hits the locked database and
`apply_toeic_lc_template` falls back to `apply_general_template`. -/
theorem toeic_lc_falls_back_to_general (committed : Hier) (breaks : List Rat)
    (sents : List Sent) (h : ∃ c ∈ committed, chapterHasSentences c) :
    reorganize_chapters_scenes committed "toeic_lc" breaks sents noInj =
      apply_general_template sents := by
  obtain ⟨c, hc, hcs⟩ := h
  have hall : ¬ (committed.all fun c => !chapterHasSentences c) = true := by
    simp only [List.all_eq_true, Bool.not_eq_true']
    intro hfa
    exact absurd (hfa c hc) (by simp [hcs])
  simp [reorganize_chapters_scenes, apply_toeic_lc_template, hall, noInj]

theorem toeic_lc_falls_back_to_general_witness :
    reorganize_chapters_scenes [⟨"A", 0, 10, 1, [⟨"S", 0, 10, 1, [sentRow (mkSent 0 10 1)]⟩]⟩]
        "toeic_lc" [] [mkSent 0 1 2] noInj = apply_general_template [mkSent 0 1 2] :=
  toeic_lc_falls_back_to_general _ _ _ ⟨_, List.mem_singleton.mpr rfl, by decide⟩

/-- C4 (counterexample): an unrecognized template name does not behave like
`"general"`: on a one-sentence input with silence breaks `[0, 100]` the
unknown name produces the auto template's single-chapter output, while
`"general"` produces two time-sliced chapters. -/
theorem c4_counterexample :
    reorganize_chapters_scenes [] "bogus" [0, 100] [mkSent 0 1 1] noInj ≠
      reorganize_chapters_scenes [] "general" [0, 100] [mkSent 0 1 1] noInj := by
  apply of_decide_eq_true
  with_unfolding_all rfl

/-- C4 (amended): every template name outside the six recognized ones is
routed to the silence-based auto branch (the code's
`else: # auto or any unknown template`), i.e. behaves exactly like
`"auto"`, not like `"general"`. -/
theorem unknown_template_behaves_as_auto (committed : Hier) (template : String)
    (breaks : List Rat) (sents : List Sent) (inj : Inj)
    (h : template ∉ ["toeic_lc", "toeic_rc", "general", "conversation", "audiobook", "manual"]) :
    reorganize_chapters_scenes committed template breaks sents inj =
      reorganize_chapters_scenes committed "auto" breaks sents inj := by
  simp only [List.mem_cons, List.not_mem_nil, or_false, not_or] at h
  obtain ⟨h1, h2, h3, h4, h5, h6⟩ := h
  by_cases htr : inj.template_raises <;>
    simp [reorganize_chapters_scenes, h1, h2, h3, h4, h5, h6, htr]

theorem unknown_template_behaves_as_auto_witness :
    reorganize_chapters_scenes [] "bogus" [0, 100] [mkSent 0 1 1] noInj =
      reorganize_chapters_scenes [] "auto" [0, 100] [mkSent 0 1 1] noInj :=
  unknown_template_behaves_as_auto _ _ _ _ _ (by decide)

/-- `group_sentences_by_breaks` never forms a group out of an empty
sentence list. -/
theorem group_sentences_by_breaks_nil (breaks : List Rat) :
    group_sentences_by_breaks [] breaks = [] := by
  unfold group_sentences_by_breaks
  induction ratPairs breaks with
  | nil => rfl
  | cons p ps ih => simp [List.filterMap_cons, ih]

/-- C5 (counterexample): on an empty sentence list the manual template
inserts nothing at all — the媒 media is left with zero chapters, not with a
single chapter and scene. -/
theorem c5_counterexample :
    reorganize_chapters_scenes [⟨"A", 0, 10, 1, [⟨"S", 0, 10, 1, []⟩]⟩]
      "manual" [] [] noInj = [] := by
  with_unfolding_all rfl

/-- C5 (amended): an empty input never raises, but the persisted result is
template-dependent: `manual` persists no chapters at all; `auto` persists
one chapter with one scene spanning `[0, 60]` (the hard-coded 60-second
default, not the media duration) and zero sentences; `general` persists two
scene-less time-slice chapters; `toeic_lc` (with nothing previously
committed) persists the temporary single chapter/scene over `[0, 60]`. -/
theorem empty_input_behavior (committed : Hier) (breaks : List Rat) :
    reorganize_chapters_scenes committed "manual" breaks [] noInj = [] ∧
    reorganize_chapters_scenes committed "auto" breaks [] noInj =
      [⟨"전체", 0, 60, 1, [⟨"전체", 0, 60, 1, []⟩]⟩] ∧
    reorganize_chapters_scenes committed "general" breaks [] noInj =
      [⟨"강의 1", 0, 30, 1, []⟩, ⟨"강의 2", 30, 60, 2, []⟩] ∧
    reorganize_chapters_scenes [] "toeic_lc" breaks [] noInj =
      [⟨"임시", 0, 60, 1, [⟨"임시", 0, 60, 1, []⟩]⟩] := by
  have hauto : apply_auto_template breaks [] =
      [⟨"전체", 0, 60, 1, [⟨"전체", 0, 60, 1, []⟩]⟩] := by
    unfold apply_auto_template
    rw [group_sentences_by_breaks_nil]
    rfl
  refine ⟨rfl, ?_, ?_, ?_⟩
  · show apply_auto_template breaks [] = _
    exact hauto
  · show apply_general_template [] = _
    with_unfolding_all rfl
  · show apply_toeic_lc_template [] [] noInj.fallback_raises = _
    with_unfolding_all rfl

/-- C6 (counterexample): `apply_toeic_template_to_media` skips parts with no
scenes while numbering chapters by part position: with one sentence lying in
Part 4's time window the single persisted chapter has order 4, so chapter
orders are not the contiguous sequence starting at 1. -/
theorem c6_counterexample :
    ¬ ordsContiguous (apply_toeic_template_to_media 5010 [mkSent 3000 3001 1]) := by
  apply of_decide_eq_true
  with_unfolding_all rfl

/-- C7 (counterexample): the auto template's small-group branch persists the
scene with the silence group's interval bounds rather than bounds derived
from its sentences: one sentence spanning `[10, 20]` in break interval
`[0, 100]` gets a scene whose start time 0 is attained by no sentence. -/
theorem c7_counterexample :
    ¬ sceneBoundsFromContent
      (reorganize_chapters_scenes [] "auto" [0, 100] [mkSent 10 20 1] noInj) := by
  apply of_decide_eq_true
  with_unfolding_all rfl

/-- C1 (counterexample): a sentence spanning a silence midpoint is put into
both adjacent groups by `group_sentences_by_breaks`'s overlap branch, hence
into two scenes of the rebuilt hierarchy — not exactly one. -/
theorem c1_counterexample :
    scenesContaining (reorganize_chapters_scenes [] "auto" [0, 5, 10] [mkSent 4 6 1] noInj)
        (sentRow (mkSent 4 6 1)) = 2 ∧
      scenesContaining (reorganize_chapters_scenes [] "auto" [0, 5, 10] [mkSent 4 6 1] noInj)
        (sentRow (mkSent 4 6 1)) ≠ 1 :=
  ⟨by apply of_decide_eq_true; with_unfolding_all rfl, by apply of_decide_eq_true; with_unfolding_all rfl⟩

theorem sliceIdxs_lt (n len : Nat) (hn : 0 < n) : ∀ i ∈ sliceIdxs n len, i < len := by
  intro i hi
  unfold sliceIdxs at hi
  obtain ⟨k, hk, rfl⟩ := List.mem_map.mp hi
  rw [List.mem_range] at hk
  have hceil : (len + n - 1) / n * n ≤ len + n - 1 := Nat.div_mul_le_self _ _
  have hk1 : (k + 1) * n ≤ (len + n - 1) / n * n := Nat.mul_le_mul_right n hk
  rw [Nat.succ_mul] at hk1
  omega

theorem exists_chunk_mem {α} (n : Nat) (hn : 0 < n) {x : α} {xs : List α} (hx : x ∈ xs) :
    ∃ i ∈ sliceIdxs n xs.length, x ∈ (xs.drop i).take n := by
  obtain ⟨j, hj, rfl⟩ := List.mem_iff_getElem.mp hx
  have hmod : j % n < n := Nat.mod_lt _ hn
  have hdm : n * (j / n) + j % n = j := Nat.div_add_mod j n
  have hmul : j / n * n = n * (j / n) := Nat.mul_comm _ _
  refine ⟨j / n * n, ?_, ?_⟩
  · refine List.mem_map.mpr ⟨j / n, List.mem_range.mpr ?_, rfl⟩
    have h1 : xs.length ≤ (xs.length + n - 1) / n * n := by
      have hd := Nat.div_add_mod (xs.length + n - 1) n
      have hm : (xs.length + n - 1) % n < n := Nat.mod_lt _ hn
      have : (xs.length + n - 1) / n * n = n * ((xs.length + n - 1) / n) := Nat.mul_comm _ _
      omega
    exact (Nat.div_lt_iff_lt_mul hn).mpr (by omega)
  · have hlen : j % n < ((xs.drop (j / n * n)).take n).length := by
      rw [List.length_take, List.length_drop]
      exact lt_min hmod (by omega)
    refine List.mem_iff_getElem.mpr ⟨j % n, hlen, ?_⟩
    rw [List.getElem_take, List.getElem_drop]
    congr 1
    omega

/-- The sentence counts of the chunking loop `range(0, len, n)`:
`min n (len - i)` sentences for each slice start `i`. -/
def chunkSizes (n len : Nat) : List Nat := (sliceIdxs n len).map fun i => min n (len - i)

theorem mkScenes_sizes (n : Nat) (f : Nat → String) (xs : List Sent) :
    (mkScenes n f xs).map (·.sents.length) = chunkSizes n xs.length := by
  unfold mkScenes chunkSizes
  rw [List.map_map]
  refine List.map_congr_left fun i _ => ?_
  simp

theorem headD_mem' {α} (l : List α) (d : α) (h : l ≠ []) : l.headD d ∈ l := by
  cases l with
  | nil => exact absurd rfl h
  | cons a t => simp

theorem getLastD_mem' {α} (l : List α) (d : α) (h : l ≠ []) : l.getLastD d ∈ l := by
  induction l generalizing d with
  | nil => exact absurd rfl h
  | cons a t ih =>
    rw [List.getLastD_cons]
    cases t with
    | nil => simp
    | cons b u => exact List.mem_cons_of_mem a (ih b (by simp))

theorem pairwise_headD_le (l : List Sent)
    (hp : l.Pairwise fun a b => a.start_time ≤ b.start_time ∧ a.end_time ≤ b.end_time) :
    ∀ x ∈ l, (l.headD dfltSent).start_time ≤ x.start_time := by
  cases l with
  | nil => simp
  | cons y t =>
    intro x hx
    rcases List.mem_cons.mp hx with rfl | hx
    · simp
    · exact ((List.pairwise_cons.mp hp).1 x hx).1

theorem pairwise_le_getLastD (l : List Sent)
    (hp : l.Pairwise fun a b => a.start_time ≤ b.start_time ∧ a.end_time ≤ b.end_time) :
    ∀ x ∈ l, x.end_time ≤ (l.getLastD dfltSent).end_time := by
  induction l with
  | nil => simp
  | cons y t ih =>
    intro x hx
    rw [List.getLastD_cons]
    cases t with
    | nil =>
      rcases List.mem_cons.mp hx with rfl | hx'
      · simp
      · simp at hx'
    | cons b u =>
      have hp' := List.pairwise_cons.mp hp
      rcases List.mem_cons.mp hx with rfl | hx'
      · have hl : (b :: u).getLastD x ∈ b :: u := getLastD_mem' _ _ (by simp)
        exact (hp'.1 _ hl).2
      · have := ih hp'.2 x hx'
        rw [List.getLastD_cons] at this ⊢
        exact this

theorem mkScenes_bounds (n : Nat) (hn : 0 < n) (f : Nat → String) (xs : List Sent)
    (hx : xs.Pairwise fun a b => a.start_time ≤ b.start_time ∧ a.end_time ≤ b.end_time) :
    ∀ sc ∈ mkScenes n f xs,
      (∀ r ∈ sc.sents, sc.start_time ≤ r.start_time ∧ r.end_time ≤ sc.end_time) ∧
      (∃ r ∈ sc.sents, r.start_time = sc.start_time) ∧
      (∃ r ∈ sc.sents, r.end_time = sc.end_time) := by
  intro sc hsc
  obtain ⟨i, hi, rfl⟩ := List.mem_map.mp hsc
  have hilt : i < xs.length := sliceIdxs_lt n _ hn i hi
  have hsub : ((xs.drop i).take n).Sublist xs :=
    (List.take_sublist _ _).trans (List.drop_sublist _ _)
  have hch : ((xs.drop i).take n).Pairwise
      fun a b => a.start_time ≤ b.start_time ∧ a.end_time ≤ b.end_time := hx.sublist hsub
  have hne : (xs.drop i).take n ≠ [] := by
    have : ((xs.drop i).take n).length = min n (xs.length - i) := by simp
    intro hcon
    rw [hcon] at this
    simp at this
    omega
  refine ⟨?_, ?_, ?_⟩
  · intro r hr
    obtain ⟨x, hxm, rfl⟩ := List.mem_map.mp hr
    exact ⟨pairwise_headD_le _ hch x hxm, pairwise_le_getLastD _ hch x hxm⟩
  · exact ⟨sentRow (((xs.drop i).take n).headD dfltSent),
      List.mem_map_of_mem _ (headD_mem' _ _ hne), rfl⟩
  · exact ⟨sentRow (((xs.drop i).take n).getLastD dfltSent),
      List.mem_map_of_mem _ (getLastD_mem' _ _ hne), rfl⟩

/-- C9: the auto template splits a silence group of more than 20 sentences
into consecutive scenes of 10 (last takes the remainder, sizes
`min 10 (len - i)` along `range(0, len, 10)`), a group of at most 20
sentences becomes exactly one scene, and a 45-sentence group yields exactly
the scene sizes 10, 10, 10, 10, 5 in order. -/
theorem auto_scene_split (g : BreakGroup) :
    (20 < g.sents.length →
      (autoScenes g).map (·.sents.length) = chunkSizes 10 g.sents.length) ∧
    (g.sents.length ≤ 20 → (autoScenes g).map (·.sents.length) = [g.sents.length]) ∧
    (g.sents.length = 45 →
      (autoScenes g).map (·.sents.length) = [10, 10, 10, 10, 5]) := by
  have main : ∀ _h : 20 < g.sents.length,
      (autoScenes g).map (·.sents.length) = chunkSizes 10 g.sents.length := by
    intro h
    unfold autoScenes
    rw [if_pos h]
    exact mkScenes_sizes 10 _ g.sents
  refine ⟨main, ?_, ?_⟩
  · intro h
    unfold autoScenes
    rw [if_neg (Nat.not_lt.mpr h)]
    simp
  · intro h45
    rw [main (by omega), h45]
    decide

def g45 : BreakGroup :=
  ⟨0, 100, (List.range 45).map fun (j : Nat) => mkSent (j : Rat) ((j : Rat) + 1) j⟩

theorem auto_scene_split_witness :
    (autoScenes g45).map (·.sents.length) = [10, 10, 10, 10, 5] :=
  (auto_scene_split g45).2.2 (by with_unfolding_all rfl)

/-- C7 (amended): for the sentence-chunked scenes — here the general
template — each scene's time bounds are derived from its contents: when the
input spans are time-ordered (nondecreasing start and end times, as ASR
output is), every scene's startTime is the minimum sentence startTime and
its endTime the maximum sentence endTime.  (The auto template's small-group
scenes instead inherit the silence interval's bounds, and chapter bounds of
the ratio templates are arithmetic time slices.) -/
theorem general_scene_bounds (sents : List Sent)
    (hs : sents.Pairwise fun a b => a.start_time ≤ b.start_time ∧ a.end_time ≤ b.end_time) :
    sceneBoundsFromContent (apply_general_template sents) := by
  intro c hc sc hsc
  obtain ⟨i, _, rfl⟩ := List.mem_map.mp hc
  dsimp only at hsc
  exact mkScenes_bounds 15 (by norm_num) _ _ (hs.filter _) sc hsc

theorem general_scene_bounds_witness :
    sceneBoundsFromContent (apply_general_template [mkSent 0 1 1, mkSent 2 3 2]) :=
  general_scene_bounds _ (by decide)

theorem enumIdxGo_length (f : Nat → α → β) :
    ∀ (xs : List α) (k : Nat), (enumIdxGo f k xs).length = xs.length := by
  intro xs
  induction xs with
  | nil => intro k; rfl
  | cons x t ih => intro k; simp [enumIdxGo, ih]

theorem enumIdxGo_map_ord (f : Nat → α → β) (g : β → Nat) (hg : ∀ i x, g (f i x) = i + 1) :
    ∀ (xs : List α) (k : Nat), (enumIdxGo f k xs).map g = List.range' (k + 1) xs.length := by
  intro xs
  induction xs with
  | nil => intro k; rfl
  | cons x t ih =>
    intro k
    rw [List.length_cons, List.range'_succ]
    simp only [enumIdxGo, List.map_cons, hg]
    rw [ih (k + 1)]

theorem enumIdxGo_mem {f : Nat → α → β} :
    ∀ {xs : List α} {k : Nat} {y : β}, y ∈ enumIdxGo f k xs → ∃ i x, x ∈ xs ∧ y = f i x := by
  intro xs
  induction xs with
  | nil => intro k y hy; simp [enumIdxGo] at hy
  | cons x t ih =>
    intro k y hy
    rcases List.mem_cons.mp hy with rfl | hy'
    · exact ⟨k, x, List.mem_cons_self x t, rfl⟩
    · obtain ⟨i, z, hz, rfl⟩ := ih hy'
      exact ⟨i, z, List.mem_cons_of_mem x hz, rfl⟩

theorem enumIdxGo_mem_of (f : Nat → α → β) :
    ∀ {x : α} {xs : List α}, x ∈ xs → ∀ k, ∃ i, f i x ∈ enumIdxGo f k xs := by
  intro x xs
  induction xs with
  | nil => intro h; simp at h
  | cons z t ih =>
    intro hx k
    rcases List.mem_cons.mp hx with rfl | hx'
    · exact ⟨k, List.mem_cons_self _ _⟩
    · obtain ⟨i, hi⟩ := ih hx' (k + 1)
      exact ⟨i, List.mem_cons_of_mem _ hi⟩

/-- Scene orders within a chapter are `1..S_c`. -/
def sceneOrdsContiguous (scs : List Scene) : Prop :=
  scs.map (·.ord) = List.range' 1 scs.length

theorem mkScenes_ords (n : Nat) (hn : 0 < n) (f : Nat → String) (xs : List Sent) :
    sceneOrdsContiguous (mkScenes n f xs) := by
  unfold sceneOrdsContiguous mkScenes sliceIdxs
  rw [List.map_map, List.map_map, List.length_map, List.length_map, List.length_range,
    List.range'_eq_map_range]
  refine List.map_congr_left fun k _ => ?_
  simp only [Function.comp_apply]
  rw [Nat.mul_div_cancel k hn]
  omega

theorem ordsContiguous_map_range (cnt : Nat) (builder : Nat → Chapter)
    (hord : ∀ i, (builder i).ord = i + 1)
    (hsc : ∀ i, sceneOrdsContiguous (builder i).scenes) :
    ordsContiguous ((List.range cnt).map builder) := by
  constructor
  · rw [List.map_map, List.length_map, List.length_range, List.range'_eq_map_range]
    refine List.map_congr_left fun k _ => ?_
    simp only [Function.comp_apply]
    rw [hord k]
    omega
  · intro c hc
    obtain ⟨i, _, rfl⟩ := List.mem_map.mp hc
    exact hsc i

theorem ordsContiguous_enumIdx (xs : List γ) (builder : Nat → γ → Chapter)
    (hord : ∀ i x, (builder i x).ord = i + 1)
    (hsc : ∀ i x, sceneOrdsContiguous (builder i x).scenes) :
    ordsContiguous (enumIdx builder xs) := by
  constructor
  · rw [enumIdx, enumIdxGo_map_ord _ _ hord, enumIdxGo_length]
  · intro c hc
    obtain ⟨i, x, _, rfl⟩ := enumIdxGo_mem hc
    exact hsc i x

theorem ords_general (sents : List Sent) : ordsContiguous (apply_general_template sents) := by
  unfold apply_general_template
  refine ordsContiguous_map_range _ _ (fun i => rfl) fun i => ?_
  dsimp only
  exact mkScenes_ords 15 (by norm_num) _ _

theorem ords_toeic_rc (sents : List Sent) : ordsContiguous (apply_toeic_rc_template sents) := by
  unfold apply_toeic_rc_template
  refine ordsContiguous_enumIdx _ _ (fun i x => rfl) fun i x => ?_
  dsimp only
  exact mkScenes_ords 10 (by norm_num) _ _

theorem ords_conversation (sents : List Sent) :
    ordsContiguous (apply_conversation_template sents) := by
  unfold apply_conversation_template
  refine ordsContiguous_map_range _ _ (fun i => rfl) fun i => ?_
  dsimp only
  exact mkScenes_ords 8 (by norm_num) _ _

theorem ords_audiobook (sents : List Sent) :
    ordsContiguous (apply_audiobook_template sents) := by
  unfold apply_audiobook_template
  refine ordsContiguous_map_range _ _ (fun i => rfl) fun i => ?_
  dsimp only
  exact mkScenes_ords 20 (by norm_num) _ _

theorem ords_manual (sents : List Sent) : ordsContiguous (apply_manual_template sents) := by
  unfold apply_manual_template
  split_ifs with h
  · exact ⟨rfl, by simp⟩
  · refine ordsContiguous_enumIdx _ _ (fun i p => rfl) fun i p => ?_
    show sceneOrdsContiguous (enumIdx mkManualScene _)
    unfold sceneOrdsContiguous
    rw [enumIdx, enumIdxGo_map_ord mkManualScene (fun sc => sc.ord) (fun i sg => rfl),
      enumIdxGo_length]

theorem ords_auto (breaks : List Rat) (sents : List Sent) :
    ordsContiguous (apply_auto_template breaks sents) := by
  simp only [apply_auto_template]
  split_ifs with h
  · refine ⟨rfl, ?_⟩
    intro c hc
    rw [List.mem_singleton] at hc
    subst hc
    rfl
  · refine ordsContiguous_enumIdx _ _ (fun i g => rfl) fun i g => ?_
    show sceneOrdsContiguous (autoScenes g)
    unfold autoScenes
    split_ifs with h20
    · exact mkScenes_ords 10 (by norm_num) _ _
    · rfl

theorem ords_tempHier (sents : List Sent) : ordsContiguous (tempHier sents) := by
  refine ⟨rfl, ?_⟩
  intro c hc
  rw [tempHier, List.mem_singleton] at hc
  subst hc
  rfl

/-- C6 (amended): every hierarchy persisted by `reorganize_chapters_scenes`
— under every template name and any input — has contiguous Chapter orders
`1..C` and, within each Chapter, contiguous Scene orders `1..S_c`.  The
exception justifying the amendment is the standalone ratio-based
`apply_toeic_template_to_media`, which skips scene-less parts while
numbering chapters by part position and so can leave gaps. -/
theorem rebuild_orders_contiguous (committed : Hier) (template : String)
    (breaks : List Rat) (sents : List Sent) :
    ordsContiguous (reorganize_chapters_scenes committed template breaks sents noInj) := by
  unfold reorganize_chapters_scenes
  split_ifs with h1 h2 h3 h4 h5 h6 h7
  · unfold apply_toeic_lc_template
    split_ifs with ha hb
    · exact ords_tempHier sents
    · exact absurd hb (by decide)
    · exact ords_general sents
  · exact absurd h2 (by decide)
  · exact ords_toeic_rc sents
  · exact ords_general sents
  · exact ords_conversation sents
  · exact ords_audiobook sents
  · exact ords_manual sents
  · exact ords_auto breaks sents

theorem mem_allSentRows {h : Hier} {r : SentRow} :
    r ∈ allSentRows h ↔ ∃ c ∈ h, ∃ sc ∈ c.scenes, r ∈ sc.sents := by
  unfold allSentRows
  simp only [List.mem_flatten, List.mem_map]
  constructor
  · rintro ⟨l, ⟨c, hc, rfl⟩, hr⟩
    obtain ⟨l', hl', hr'⟩ := List.mem_flatten.mp hr
    obtain ⟨sc, hsc, rfl⟩ := List.mem_map.mp hl'
    exact ⟨c, hc, sc, hsc, hr'⟩
  · rintro ⟨c, hc, sc, hsc, hr⟩
    exact ⟨_, ⟨c, hc, rfl⟩, List.mem_flatten.mpr ⟨_, List.mem_map_of_mem _ hsc, hr⟩⟩

theorem allBookmarksZero_of {h : Hier}
    (H : ∀ c ∈ h, ∀ sc ∈ c.scenes, ∀ r ∈ sc.sents, r.bookmark = 0) :
    allBookmarksZero h := by
  intro r hr
  obtain ⟨c, hc, sc, hsc, hrm⟩ := mem_allSentRows.mp hr
  exact H c hc sc hsc r hrm

theorem bookmarks_mkScenes (n : Nat) (f : Nat → String) (xs : List Sent) :
    ∀ sc ∈ mkScenes n f xs, ∀ r ∈ sc.sents, r.bookmark = 0 := by
  intro sc hsc r hr
  obtain ⟨i, _, rfl⟩ := List.mem_map.mp hsc
  obtain ⟨x, _, rfl⟩ := List.mem_map.mp hr
  rfl

theorem bookmarks_general (sents : List Sent) :
    allBookmarksZero (apply_general_template sents) := by
  refine allBookmarksZero_of ?_
  intro c hc
  obtain ⟨i, _, rfl⟩ := List.mem_map.mp hc
  dsimp only
  exact bookmarks_mkScenes 15 _ _

theorem bookmarks_toeic_rc (sents : List Sent) :
    allBookmarksZero (apply_toeic_rc_template sents) := by
  refine allBookmarksZero_of ?_
  intro c hc
  obtain ⟨i, x, _, rfl⟩ := enumIdxGo_mem hc
  dsimp only
  exact bookmarks_mkScenes 10 _ _

theorem bookmarks_conversation (sents : List Sent) :
    allBookmarksZero (apply_conversation_template sents) := by
  refine allBookmarksZero_of ?_
  intro c hc
  obtain ⟨i, _, rfl⟩ := List.mem_map.mp hc
  dsimp only
  exact bookmarks_mkScenes 8 _ _

theorem bookmarks_audiobook (sents : List Sent) :
    allBookmarksZero (apply_audiobook_template sents) := by
  refine allBookmarksZero_of ?_
  intro c hc
  obtain ⟨i, _, rfl⟩ := List.mem_map.mp hc
  dsimp only
  exact bookmarks_mkScenes 20 _ _

theorem bookmarks_manual (sents : List Sent) :
    allBookmarksZero (apply_manual_template sents) := by
  unfold apply_manual_template
  split_ifs with h
  · intro r hr
    simp [allSentRows] at hr
  · refine allBookmarksZero_of ?_
    intro c hc
    obtain ⟨i, p, _, rfl⟩ := enumIdxGo_mem hc
    intro sc hsc
    obtain ⟨j, sg, _, rfl⟩ := enumIdxGo_mem hsc
    intro r hr
    obtain ⟨x, _, rfl⟩ := List.mem_map.mp hr
    rfl

theorem bookmarks_auto (breaks : List Rat) (sents : List Sent) :
    allBookmarksZero (apply_auto_template breaks sents) := by
  simp only [apply_auto_template]
  split_ifs with h
  · refine allBookmarksZero_of ?_
    intro c hc
    rw [List.mem_singleton] at hc
    subst hc
    intro sc hsc
    rw [List.mem_singleton] at hsc
    subst hsc
    intro r hr
    obtain ⟨x, _, rfl⟩ := List.mem_map.mp hr
    rfl
  · refine allBookmarksZero_of ?_
    intro c hc
    obtain ⟨i, g, _, rfl⟩ := enumIdxGo_mem hc
    intro sc hsc
    have hsc' : sc ∈ autoScenes g := hsc
    unfold autoScenes at hsc'
    split_ifs at hsc' with h20
    · exact bookmarks_mkScenes 10 _ _ sc hsc'
    · rw [List.mem_singleton] at hsc'
      subst hsc'
      intro r hr
      obtain ⟨x, _, rfl⟩ := List.mem_map.mp hr
      rfl

theorem bookmarks_tempHier (sents : List Sent) : allBookmarksZero (tempHier sents) := by
  refine allBookmarksZero_of ?_
  intro c hc
  rw [tempHier, List.mem_singleton] at hc
  subst hc
  intro sc hsc
  rw [List.mem_singleton] at hsc
  subst hsc
  intro r hr
  obtain ⟨x, _, rfl⟩ := List.mem_map.mp hr
  rfl

/-- C10: every successful rebuild inserts every Sentence row with
`bookmark = 0`, for every template and every input: in particular a
bookmark set through `toggle_bookmark` before the rebuild is erased, even
when the sentence's text and timestamps are carried over unchanged. -/
theorem rebuild_resets_bookmarks (committed : Hier) (sid : Nat) (template : String)
    (breaks : List Rat) (sents : List Sent) :
    allBookmarksZero
      (reorganize_chapters_scenes (toggle_bookmark committed sid) template breaks sents noInj) := by
  unfold reorganize_chapters_scenes
  split_ifs with h1 h2 h3 h4 h5 h6 h7
  · unfold apply_toeic_lc_template
    split_ifs with ha hb
    · exact bookmarks_tempHier sents
    · exact absurd hb (by decide)
    · exact bookmarks_general sents
  · exact absurd h2 (by decide)
  · exact bookmarks_toeic_rc sents
  · exact bookmarks_general sents
  · exact bookmarks_conversation sents
  · exact bookmarks_audiobook sents
  · exact bookmarks_manual sents
  · exact bookmarks_auto breaks sents

theorem ratPairs_cover :
    ∀ (bs : List Rat) (t : Rat), bs.Chain' (· < ·) →
      bs.head?.getD 0 ≤ t → t < (bs.getLast?.getD 0) →
      ∃ p ∈ ratPairs bs, p.1 ≤ t ∧ t < p.2 := by
  intro bs
  induction bs with
  | nil =>
    intro t _ h1 h2
    simp at h1 h2
    exact absurd (lt_of_le_of_lt h1 h2) (lt_irrefl 0)
  | cons a bs ih =>
    cases bs with
    | nil =>
      intro t _ h1 h2
      simp at h1 h2
      exact absurd (lt_of_le_of_lt h1 h2) (lt_irrefl a)
    | cons b rest =>
      intro t hch h1 h2
      simp only [List.head?_cons, Option.getD_some] at h1
      by_cases hb : t < b
      · exact ⟨(a, b), List.mem_cons_self _ _, h1, hb⟩
      · have hch' : (b :: rest).Chain' (· < ·) := hch.tail
        have h2' : t < (b :: rest).getLast?.getD 0 := by
          rwa [List.getLast?_cons_cons] at h2
        obtain ⟨p, hp, hle, hlt⟩ :=
          ih t hch' (by simpa using not_lt.mp hb) h2'
        exact ⟨p, List.mem_cons_of_mem _ hp, hle, hlt⟩

theorem one_le_scenesContaining {h : Hier} {r : SentRow}
    (hex : ∃ c ∈ h, ∃ sc ∈ c.scenes, r ∈ sc.sents) :
    1 ≤ scenesContaining h r := by
  obtain ⟨c, hc, sc, hsc, hr⟩ := hex
  unfold scenesContaining
  have hmemf : sc ∈ c.scenes.filter fun sc => decide (r ∈ sc.sents) :=
    List.mem_filter.mpr ⟨hsc, by simpa⟩
  have hlen : 1 ≤ (c.scenes.filter fun sc => decide (r ∈ sc.sents)).length :=
    List.length_pos.mpr (List.ne_nil_of_mem hmemf)
  exact le_trans hlen
    (List.single_le_sum (fun x _ => Nat.zero_le x) _ (List.mem_map_of_mem _ hc))

theorem autoScenes_cover (g : BreakGroup) (s : Sent) (hs : s ∈ g.sents) :
    ∃ sc ∈ autoScenes g, sentRow s ∈ sc.sents := by
  unfold autoScenes
  split_ifs with h20
  · obtain ⟨i, hi, hmem⟩ := exists_chunk_mem 10 (by norm_num) hs
    refine ⟨_, List.mem_map_of_mem _ hi, ?_⟩
    exact List.mem_map_of_mem _ hmem
  · exact ⟨_, List.mem_singleton.mpr rfl, List.mem_map_of_mem _ hs⟩

/-- C1 (amended): under the auto template, every input sentence whose start
time falls inside the silence break-point range appears in at least one
persisted Scene; exclusivity fails (see the counterexample) because a
sentence overlapping a break midpoint joins both adjacent groups. -/
theorem auto_covers_each_sentence (committed : Hier) (breaks : List Rat)
    (sents : List Sent) (s : Sent)
    (hchain : breaks.Chain' (· < ·))
    (hlo : breaks.head?.getD 0 ≤ s.start_time)
    (hhi : s.start_time < breaks.getLast?.getD 0)
    (hse : s.start_time < s.end_time)
    (hmem : s ∈ sents) :
    1 ≤ scenesContaining
      (reorganize_chapters_scenes committed "auto" breaks sents noInj) (sentRow s) := by
  show 1 ≤ scenesContaining (apply_auto_template breaks sents) (sentRow s)
  obtain ⟨p, hp, hple, hplt⟩ := ratPairs_cover breaks s.start_time hchain hlo hhi
  have hcond : (decide ((p.1 ≤ s.start_time ∧ s.end_time ≤ p.2) ∨
      (s.start_time < p.2 ∧ p.1 < s.end_time))) = true := by
    simp only [decide_eq_true_eq]
    exact Or.inr ⟨hplt, lt_of_le_of_lt hple hse⟩
  have hsf : s ∈ sents.filter fun s =>
      decide ((p.1 ≤ s.start_time ∧ s.end_time ≤ p.2) ∨
        (s.start_time < p.2 ∧ p.1 < s.end_time)) :=
    List.mem_filter.mpr ⟨hmem, hcond⟩
  have hne : ¬ (sents.filter fun s =>
      decide ((p.1 ≤ s.start_time ∧ s.end_time ≤ p.2) ∨
        (s.start_time < p.2 ∧ p.1 < s.end_time))).isEmpty = true := by
    rw [List.isEmpty_iff]
    exact List.ne_nil_of_mem hsf
  have hg : (⟨p.1, p.2, sents.filter fun s =>
        decide ((p.1 ≤ s.start_time ∧ s.end_time ≤ p.2) ∨
          (s.start_time < p.2 ∧ p.1 < s.end_time))⟩ : BreakGroup) ∈
      group_sentences_by_breaks sents breaks := by
    unfold group_sentences_by_breaks
    refine List.mem_filterMap.mpr ⟨p, hp, ?_⟩
    rw [if_neg hne]
  have hgs : s ∈ (⟨p.1, p.2, sents.filter fun s =>
      decide ((p.1 ≤ s.start_time ∧ s.end_time ≤ p.2) ∨
        (s.start_time < p.2 ∧ p.1 < s.end_time))⟩ : BreakGroup).sents := hsf
  simp only [apply_auto_template]
  rw [if_neg (by rw [List.isEmpty_iff]; exact List.ne_nil_of_mem hg)]
  obtain ⟨sc, hscm, hscr⟩ := autoScenes_cover _ s hgs
  obtain ⟨i, hchap⟩ := enumIdxGo_mem_of
    (fun ci g => (⟨"Chapter " ++ toString (ci + 1), g.start_time, g.end_time, ci + 1,
      autoScenes g⟩ : Chapter)) hg 0
  exact one_le_scenesContaining ⟨_, hchap, sc, hscm, hscr⟩

theorem auto_covers_each_sentence_witness :
    1 ≤ scenesContaining
      (reorganize_chapters_scenes [] "auto" [0, 10] [mkSent 1 2 1] noInj)
      (sentRow (mkSent 1 2 1)) :=
  auto_covers_each_sentence [] [0, 10] [mkSent 1 2 1] (mkSent 1 2 1)
    (by rw [List.chain'_cons]; exact ⟨by norm_num, List.chain'_singleton _⟩)
    (by apply of_decide_eq_true; with_unfolding_all rfl)
    (by apply of_decide_eq_true; with_unfolding_all rfl)
    (by apply of_decide_eq_true; with_unfolding_all rfl)
    (by apply of_decide_eq_true; with_unfolding_all rfl)

/-- Consecutive pairs `(start, break)` walked by the slicing loops. -/
def consPairs : Nat → List Nat → List (Nat × Nat)
  | _, [] => []
  | s, b :: bs => (s, b) :: consPairs b bs

theorem pySlice_length (xs : List α) (a b : Nat) (hb : b ≤ xs.length) :
    (pySlice xs a b).length = b - a := by
  unfold pySlice
  rw [List.length_take, List.length_drop]
  omega

theorem pySlice_ne_nil (xs : List α) (a b : Nat) (hab : a < b) (hb : b ≤ xs.length) :
    pySlice xs a b ≠ [] := by
  intro hcon
  have := pySlice_length xs a b hb
  rw [hcon] at this
  simp at this
  omega

theorem consPairs_mem : ∀ (bs : List Nat) (s : Nat) {q : Nat × Nat}, q ∈ consPairs s bs →
    (q.1 = s ∨ q.1 ∈ bs) ∧ q.2 ∈ bs := by
  intro bs
  induction bs with
  | nil => intro s q hq; simp [consPairs] at hq
  | cons b bs ih =>
    intro s q hq
    rcases List.mem_cons.mp hq with rfl | hq'
    · exact ⟨Or.inl rfl, List.mem_cons_self _ _⟩
    · obtain ⟨h1, h2⟩ := ih b hq'
      refine ⟨?_, List.mem_cons_of_mem _ h2⟩
      rcases h1 with rfl | h1'
      · exact Or.inr (List.mem_cons_self _ _)
      · exact Or.inr (List.mem_cons_of_mem _ h1')

theorem consPairs_lt : ∀ (bs : List Nat) (s : Nat),
    List.Chain' (· < ·) (s :: bs) → ∀ q ∈ consPairs s bs, q.1 < q.2 := by
  intro bs
  induction bs with
  | nil => intro s _ q hq; simp [consPairs] at hq
  | cons b bs ih =>
    intro s hch q hq
    rcases List.mem_cons.mp hq with rfl | hq'
    · exact (List.chain'_cons.mp hch).1
    · exact ih b (List.chain'_cons.mp hch).2 q hq'

theorem getLast?_cons_some {α} (c : α) (u : List α) : ∃ x, (c :: u).getLast? = some x := by
  cases hgl : (c :: u).getLast? with
  | none => exact absurd (List.getLast?_eq_none_iff.mp hgl) (by simp)
  | some x => exact ⟨x, rfl⟩

theorem chain_le_getLast : ∀ (bs : List Nat) (s : Nat),
    List.Chain' (· ≤ ·) (s :: bs) → s ≤ bs.getLast?.getD s := by
  intro bs
  induction bs with
  | nil => intro s _; simp
  | cons b bs ih =>
    intro s hch
    have hsb : s ≤ b := (List.chain'_cons.mp hch).1
    have hrec := ih b (List.chain'_cons.mp hch).2
    cases bs with
    | nil => simpa using hsb
    | cons c u =>
      obtain ⟨x, hx⟩ := getLast?_cons_some c u
      rw [List.getLast?_cons_cons, hx]
      rw [hx] at hrec
      simp only [Option.getD_some] at hrec ⊢
      omega

theorem consPairs_sum_diff : ∀ (bs : List Nat) (s : Nat),
    List.Chain' (· ≤ ·) (s :: bs) →
    ((consPairs s bs).map fun q => q.2 - q.1).sum = bs.getLast?.getD s - s := by
  intro bs
  induction bs with
  | nil => intro s _; simp [consPairs]
  | cons b bs ih =>
    intro s hch
    have hsb : s ≤ b := (List.chain'_cons.mp hch).1
    have hch' := (List.chain'_cons.mp hch).2
    have hbl : b ≤ bs.getLast?.getD b := chain_le_getLast bs b hch'
    rw [consPairs, List.map_cons, List.sum_cons, ih b hch']
    cases bs with
    | nil => simp
    | cons c u =>
      obtain ⟨x, hx⟩ := getLast?_cons_some c u
      rw [List.getLast?_cons_cons, hx]
      rw [hx] at hbl
      simp only [Option.getD_some] at hbl ⊢
      omega

theorem startsFrom_consPairs : ∀ (bs : List Nat) (s off : Nat),
    List.Chain' (· ≤ ·) (s :: bs) →
    startsFrom (off + s) ((consPairs s bs).map fun q => q.2 - q.1) =
      (s :: bs).dropLast.map (off + ·) := by
  intro bs
  induction bs with
  | nil => intro s off _; rfl
  | cons b bs ih =>
    intro s off hch
    have hsb : s ≤ b := (List.chain'_cons.mp hch).1
    rw [consPairs, List.map_cons, startsFrom]
    have : off + s + (b - s) = off + b := by omega
    rw [this, ih b off (List.chain'_cons.mp hch).2]
    cases bs with
    | nil => rfl
    | cons c u => rfl

theorem consPairs_cover : ∀ (bs : List Nat) (s t : Nat), s ≤ t →
    t < bs.getLast?.getD s → ∃ q ∈ consPairs s bs, q.1 ≤ t ∧ t < q.2 := by
  intro bs
  induction bs with
  | nil => intro s t h1 h2; simp at h2; omega
  | cons b bs ih =>
    intro s t h1 h2
    by_cases hb : t < b
    · exact ⟨(s, b), List.mem_cons_self _ _, h1, hb⟩
    · cases bs with
      | nil => simp at h2; omega
      | cons c u =>
        rw [List.getLast?_cons_cons] at h2
        obtain ⟨q, hq, h⟩ := ih b t (not_lt.mp hb) h2
        exact ⟨q, List.mem_cons_of_mem _ hq, h⟩

theorem enumIdxGo_map_indep (f : Nat → α → β) (g : β → γ) (g' : α → γ)
    (hg : ∀ i x, g (f i x) = g' x) :
    ∀ (xs : List α) (k : Nat), (enumIdxGo f k xs).map g = xs.map g' := by
  intro xs
  induction xs with
  | nil => intro k; rfl
  | cons x t ih => intro k; simp [enumIdxGo, hg, ih]

theorem slicesGo_eq (xs : List α) : ∀ (bs : List Nat) (s : Nat),
    List.Chain' (· < ·) (s :: bs) → (∀ b ∈ bs, b ≤ xs.length) →
    slicesGo xs s bs = (consPairs s bs).map fun q => pySlice xs q.1 q.2 := by
  intro bs
  induction bs with
  | nil => intro s _ _; rfl
  | cons b bs ih =>
    intro s hch hle
    have hsb : s < b := (List.chain'_cons.mp hch).1
    have hbn : b ≤ xs.length := hle b (List.mem_cons_self _ _)
    have hne : ¬ (pySlice xs s b).isEmpty = true := by
      rw [List.isEmpty_iff]
      exact pySlice_ne_nil xs s b hsb hbn
    unfold slicesGo
    rw [if_neg hne, consPairs, List.map_cons,
      ih b (List.chain'_cons.mp hch).2 fun x hx => hle x (List.mem_cons_of_mem _ hx)]

theorem manualGroupsGo_eq (xs : List Sent) (sbs : List Nat) : ∀ (bs : List Nat) (s : Nat),
    List.Chain' (· < ·) (s :: bs) → (∀ b ∈ bs, b ≤ xs.length) →
    manualGroupsGo xs sbs s bs = (consPairs s bs).map fun q =>
      (pySlice xs q.1 q.2, (sbs.filter fun t => decide (q.1 ≤ t ∧ t < q.2)).map (· - q.1)) := by
  intro bs
  induction bs with
  | nil => intro s _ _; rfl
  | cons b bs ih =>
    intro s hch hle
    have hsb : s < b := (List.chain'_cons.mp hch).1
    have hbn : b ≤ xs.length := hle b (List.mem_cons_self _ _)
    have hne : ¬ (pySlice xs s b).isEmpty = true := by
      rw [List.isEmpty_iff]
      exact pySlice_ne_nil xs s b hsb hbn
    unfold manualGroupsGo
    rw [if_neg hne, consPairs, List.map_cons,
      ih b (List.chain'_cons.mp hch).2 fun x hx => hle x (List.mem_cons_of_mem _ hx)]

theorem mem_manual_chapter_breaks {xs : List Sent} {i : Nat} :
    i ∈ manual_chapter_breaks xs ↔ 1 ≤ i ∧ i < xs.length ∧ 10 ≤ gapAt xs i := by
  unfold manual_chapter_breaks
  rw [List.mem_filter, List.mem_range'_1]
  simp only [decide_eq_true_eq]
  constructor
  · rintro ⟨⟨hl, hr⟩, hg⟩
    exact ⟨hl, by omega, hg⟩
  · rintro ⟨hl, hr, hg⟩
    exact ⟨⟨hl, by omega⟩, hg⟩

theorem mem_manual_scene_breaks {xs : List Sent} {i : Nat} :
    i ∈ manual_scene_breaks xs ↔
      1 ≤ i ∧ i < xs.length ∧ ¬ 10 ≤ gapAt xs i ∧ 3 ≤ gapAt xs i := by
  unfold manual_scene_breaks
  rw [List.mem_filter, List.mem_range'_1]
  simp only [decide_eq_true_eq]
  constructor
  · rintro ⟨⟨hl, hr⟩, hg⟩
    exact ⟨hl, by omega, hg⟩
  · rintro ⟨hl, hr, hg⟩
    exact ⟨⟨hl, by omega⟩, hg⟩

theorem pairwise_manual_scene_breaks (xs : List Sent) :
    (manual_scene_breaks xs).Pairwise (· < ·) :=
  List.Pairwise.filter _ (List.pairwise_lt_range' 1 (xs.length - 1))

theorem pairwise_manual_chapter_breaks (xs : List Sent) :
    (manual_chapter_breaks xs).Pairwise (· < ·) :=
  List.Pairwise.filter _ (List.pairwise_lt_range' 1 (xs.length - 1))

theorem chapter_breaks_chain (xs : List Sent) (hne : xs ≠ []) :
    List.Chain' (· < ·) (0 :: (manual_chapter_breaks xs ++ [xs.length])) := by
  apply List.Pairwise.chain'
  rw [List.pairwise_cons]
  constructor
  · intro b hb
    rcases List.mem_append.mp hb with h | h
    · have := (mem_manual_chapter_breaks.mp h).1
      omega
    · rw [List.mem_singleton] at h
      subst h
      exact List.length_pos.mpr hne
  · rw [List.pairwise_append]
    refine ⟨pairwise_manual_chapter_breaks xs, by simp, ?_⟩
    intro a ha b hb
    rw [List.mem_singleton] at hb
    subst hb
    exact (mem_manual_chapter_breaks.mp ha).2.1

theorem chapter_breaks_le (xs : List Sent) :
    ∀ b ∈ manual_chapter_breaks xs ++ [xs.length], b ≤ xs.length := by
  intro b hb
  rcases List.mem_append.mp hb with h | h
  · exact le_of_lt (mem_manual_chapter_breaks.mp h).2.1
  · rw [List.mem_singleton] at h
    omega

theorem scene_breaks_ne_chapter_start (xs : List Sent) :
    ∀ q ∈ consPairs 0 (manual_chapter_breaks xs ++ [xs.length]),
      ∀ t ∈ manual_scene_breaks xs, t ≠ q.1 := by
  intro q hq t ht
  obtain ⟨h1, _⟩ := consPairs_mem _ _ hq
  obtain ⟨ht1, ht2, ht3, _⟩ := mem_manual_scene_breaks.mp ht
  rcases h1 with h | h
  · omega
  · rcases List.mem_append.mp h with h' | h'
    · intro hcon
      subst hcon
      exact ht3 (mem_manual_chapter_breaks.mp h').2.2
    · rw [List.mem_singleton] at h'
      omega

theorem manual_local_chain (xs : List Sent) (a b : Nat)
    (hab : a < b) (_hbn : b ≤ xs.length)
    (ha : ∀ t ∈ manual_scene_breaks xs, t ≠ a) :
    List.Chain' (· < ·)
      (0 :: ((((manual_scene_breaks xs).filter fun t => decide (a ≤ t ∧ t < b)).map (· - a)) ++
        [b - a])) := by
  apply List.Pairwise.chain'
  have hmemf : ∀ u ∈ ((manual_scene_breaks xs).filter fun t =>
      decide (a ≤ t ∧ t < b)).map (· - a), 0 < u ∧ u < b - a := by
    intro u hu
    obtain ⟨t, htm, rfl⟩ := List.mem_map.mp hu
    obtain ⟨hts, htc⟩ := List.mem_filter.mp htm
    simp only [decide_eq_true_eq] at htc
    have hta : t ≠ a := ha t hts
    omega
  rw [List.pairwise_cons]
  constructor
  · intro u hu
    rcases List.mem_append.mp hu with h | h
    · exact (hmemf u h).1
    · rw [List.mem_singleton] at h
      omega
  · rw [List.pairwise_append]
    refine ⟨?_, by simp, ?_⟩
    · rw [List.pairwise_map]
      refine List.Pairwise.imp_of_mem ?_
        (List.Pairwise.filter _ (pairwise_manual_scene_breaks xs))
      intro t1 t2 h1 _ hlt
      obtain ⟨_, hc1⟩ := List.mem_filter.mp h1
      simp only [decide_eq_true_eq] at hc1
      omega
    · intro u hu v hv
      rw [List.mem_singleton] at hv
      subst hv
      exact (hmemf u hu).2

theorem manual_local_le (xs : List Sent) (a b : Nat)
    (hab : a < b) (hbn : b ≤ xs.length) :
    ∀ u ∈ (((manual_scene_breaks xs).filter fun t => decide (a ≤ t ∧ t < b)).map (· - a)) ++
        [b - a], u ≤ (pySlice xs a b).length := by
  intro u hu
  rw [pySlice_length xs a b hbn]
  rcases List.mem_append.mp hu with h | h
  · obtain ⟨t, htm, rfl⟩ := List.mem_map.mp h
    obtain ⟨_, htc⟩ := List.mem_filter.mp htm
    simp only [decide_eq_true_eq] at htc
    omega
  · rw [List.mem_singleton] at h
    omega

theorem manual_chapter_scenes (xs : List Sent) (a b : Nat) (k : Nat)
    (hab : a < b) (hbn : b ≤ xs.length)
    (ha : ∀ t ∈ manual_scene_breaks xs, t ≠ a) :
    (mkManualChapter k (pySlice xs a b,
        ((manual_scene_breaks xs).filter fun t => decide (a ≤ t ∧ t < b)).map (· - a))).scenes.map
        sceneSize =
      (consPairs 0 ((((manual_scene_breaks xs).filter fun t => decide (a ≤ t ∧ t < b)).map (· - a)) ++
        [b - a])).map fun q => q.2 - q.1 := by
  have hlen : (pySlice xs a b).length = b - a := pySlice_length xs a b hbn
  unfold mkManualChapter
  dsimp only
  rw [hlen, enumIdx,
    enumIdxGo_map_indep mkManualScene sceneSize (fun sg => sg.length)
      (fun i sg => by simp [mkManualScene, sceneSize]),
    slicesGo_eq _ _ _ (manual_local_chain xs a b hab hbn ha)
      (manual_local_le xs a b hab hbn),
    List.map_map]
  refine List.map_congr_left fun q hq => ?_
  obtain ⟨_, h2⟩ := consPairs_mem _ _ hq
  have hq2 : q.2 ≤ b - a := by
    have := manual_local_le xs a b hab hbn q.2 h2
    omega
  simp only [Function.comp_apply]
  exact pySlice_length _ _ _ (by omega)

theorem manual_chapter_size (xs : List Sent) (a b : Nat) (k : Nat)
    (hab : a < b) (hbn : b ≤ xs.length)
    (ha : ∀ t ∈ manual_scene_breaks xs, t ≠ a) :
    chapterSize (mkManualChapter k (pySlice xs a b,
        ((manual_scene_breaks xs).filter fun t => decide (a ≤ t ∧ t < b)).map (· - a))) =
      b - a := by
  unfold chapterSize
  rw [manual_chapter_scenes xs a b k hab hbn ha,
    consPairs_sum_diff _ _
      (List.Chain'.imp (fun x y h => le_of_lt h) (manual_local_chain xs a b hab hbn ha)),
    List.getLast?_concat]
  simp

theorem manual_chapter_starts (xs : List Sent) (a b : Nat) (k : Nat)
    (hab : a < b) (hbn : b ≤ xs.length)
    (ha : ∀ t ∈ manual_scene_breaks xs, t ≠ a) :
    startsFrom a ((mkManualChapter k (pySlice xs a b,
        ((manual_scene_breaks xs).filter fun t => decide (a ≤ t ∧ t < b)).map (· - a))).scenes.map
        sceneSize) =
      a :: (manual_scene_breaks xs).filter fun t => decide (a ≤ t ∧ t < b) := by
  rw [manual_chapter_scenes xs a b k hab hbn ha]
  have hch := List.Chain'.imp (fun x y h => le_of_lt h) (manual_local_chain xs a b hab hbn ha)
  have hsf := startsFrom_consPairs
    ((((manual_scene_breaks xs).filter fun t => decide (a ≤ t ∧ t < b)).map (· - a)) ++ [b - a])
    0 a hch
  rw [Nat.add_zero] at hsf
  rw [hsf, ← List.cons_append, List.dropLast_concat, List.map_cons, List.map_map]
  have hpt : ∀ t ∈ (manual_scene_breaks xs).filter fun t => decide (a ≤ t ∧ t < b),
      ((a + ·) ∘ (· - a)) t = id t := by
    intro t ht
    obtain ⟨_, hc⟩ := List.mem_filter.mp ht
    simp only [decide_eq_true_eq] at hc
    simp only [Function.comp_apply, id]
    omega
  rw [List.map_congr_left hpt, List.map_id]
  congr 1

theorem consPairs_map_fst : ∀ (bs : List Nat) (s : Nat),
    (consPairs s bs).map Prod.fst = (s :: bs).dropLast := by
  intro bs
  induction bs with
  | nil => intro s; rfl
  | cons b bs ih =>
    intro s
    rw [consPairs, List.map_cons, ih]
    rfl

theorem manual_chapterStartIdxs (xs : List Sent) (hne : xs ≠ []) :
    chapterStartIdxs (apply_manual_template xs) = 0 :: manual_chapter_breaks xs := by
  unfold apply_manual_template
  rw [if_neg (fun hcon => hne (List.isEmpty_iff.mp hcon))]
  unfold chapterStartIdxs
  rw [enumIdx, manualGroupsGo_eq xs (manual_scene_breaks xs) _ 0
      (chapter_breaks_chain xs hne) (chapter_breaks_le xs),
    enumIdxGo_map_indep mkManualChapter chapterSize
      (fun p => chapterSize (mkManualChapter 0 p)) (fun i p => rfl),
    List.map_map]
  have hpt : ∀ q ∈ consPairs 0 (manual_chapter_breaks xs ++ [xs.length]),
      ((fun p => chapterSize (mkManualChapter 0 p)) ∘ fun q =>
        (pySlice xs q.1 q.2,
          ((manual_scene_breaks xs).filter fun t => decide (q.1 ≤ t ∧ t < q.2)).map (· - q.1))) q =
        q.2 - q.1 := by
    intro q hq
    have hlt := consPairs_lt _ _ (chapter_breaks_chain xs hne) q hq
    have hle := chapter_breaks_le xs q.2 (consPairs_mem _ _ hq).2
    have ha := scene_breaks_ne_chapter_start xs q hq
    exact manual_chapter_size xs q.1 q.2 0 hlt hle ha
  rw [List.map_congr_left hpt]
  have hsf := startsFrom_consPairs (manual_chapter_breaks xs ++ [xs.length]) 0 0
    (List.Chain'.imp (fun x y h => le_of_lt h) (chapter_breaks_chain xs hne))
  rw [Nat.add_zero] at hsf
  rw [hsf, ← List.cons_append, List.dropLast_concat]
  simp

theorem sceneStartIdxsGo_manual (xs : List Sent) : ∀ (bs : List Nat) (s k : Nat),
    List.Chain' (· < ·) (s :: bs) → (∀ b ∈ bs, b ≤ xs.length) →
    (∀ q ∈ consPairs s bs, ∀ t ∈ manual_scene_breaks xs, t ≠ q.1) →
    sceneStartIdxsGo s (enumIdxGo mkManualChapter k ((consPairs s bs).map fun q =>
        (pySlice xs q.1 q.2,
          ((manual_scene_breaks xs).filter fun t => decide (q.1 ≤ t ∧ t < q.2)).map (· - q.1)))) =
      ((consPairs s bs).map fun q =>
        q.1 :: (manual_scene_breaks xs).filter fun t => decide (q.1 ≤ t ∧ t < q.2)).flatten := by
  intro bs
  induction bs with
  | nil => intro s k _ _ _; rfl
  | cons b bs ih =>
    intro s k hch hle hq
    have hsb : s < b := (List.chain'_cons.mp hch).1
    have hbn : b ≤ xs.length := hle b (List.mem_cons_self _ _)
    have ha : ∀ t ∈ manual_scene_breaks xs, t ≠ s := fun t ht =>
      hq (s, b) (List.mem_cons_self _ _) t ht
    rw [consPairs, List.map_cons, List.map_cons, List.flatten_cons, enumIdxGo]
    simp only [sceneStartIdxsGo]
    rw [manual_chapter_starts xs s b k hsb hbn ha,
      manual_chapter_size xs s b k hsb hbn ha,
      show s + (b - s) = b from by omega,
      ih b (k + 1) (List.chain'_cons.mp hch).2
        (fun x hx => hle x (List.mem_cons_of_mem _ hx))
        (fun q hqm t ht => hq q (List.mem_cons_of_mem _ hqm) t ht)]

theorem manual_sceneStartIdxs (xs : List Sent) (hne : xs ≠ []) :
    sceneStartIdxs (apply_manual_template xs) =
      ((consPairs 0 (manual_chapter_breaks xs ++ [xs.length])).map fun q =>
        q.1 :: (manual_scene_breaks xs).filter fun t => decide (q.1 ≤ t ∧ t < q.2)).flatten := by
  unfold apply_manual_template
  rw [if_neg (fun hcon => hne (List.isEmpty_iff.mp hcon))]
  unfold sceneStartIdxs
  rw [enumIdx, manualGroupsGo_eq xs (manual_scene_breaks xs) _ 0
    (chapter_breaks_chain xs hne) (chapter_breaks_le xs)]
  exact sceneStartIdxsGo_manual xs _ 0 0 (chapter_breaks_chain xs hne)
    (chapter_breaks_le xs) (scene_breaks_ne_chapter_start xs)

/-- C8: under the manual (gap-threshold) template with the default
thresholds, for every index `i` (1-based within the input list, i.e. the
gap between sentences `i-1` and `i`): sentence `i` starts a new Chapter iff
the gap is at least 10.0 seconds, and starts a new Scene iff the gap is at
least 3.0 seconds (so a gap in `[3, 10)` starts a new Scene in the same
Chapter, and a smaller gap keeps the sentence in the same Scene).  Start
positions are expressed as indices into the concatenated sentence sequence
of the built hierarchy, which partitions the input in order. -/
theorem manual_gap_thresholds (xs : List Sent) (i : Nat) (h1 : 1 ≤ i) (h2 : i < xs.length) :
    (i ∈ chapterStartIdxs (apply_manual_template xs) ↔ 10 ≤ gapAt xs i) ∧
    (i ∈ sceneStartIdxs (apply_manual_template xs) ↔ 3 ≤ gapAt xs i) := by
  have hne : xs ≠ [] := by
    intro h
    rw [h] at h2
    simp at h2
  constructor
  · rw [manual_chapterStartIdxs xs hne]
    constructor
    · intro hi
      rcases List.mem_cons.mp hi with h | h
      · omega
      · exact (mem_manual_chapter_breaks.mp h).2.2
    · intro hg
      exact List.mem_cons_of_mem _ (mem_manual_chapter_breaks.mpr ⟨h1, h2, hg⟩)
  · rw [manual_sceneStartIdxs xs hne]
    constructor
    · intro hi
      obtain ⟨l, hl, hil⟩ := List.mem_flatten.mp hi
      obtain ⟨q, hqm, rfl⟩ := List.mem_map.mp hl
      rcases List.mem_cons.mp hil with rfl | hfil
      · rcases (consPairs_mem _ _ hqm).1 with h | h
        · omega
        · rcases List.mem_append.mp h with h' | h'
          · exact le_trans (by norm_num) (mem_manual_chapter_breaks.mp h').2.2
          · rw [List.mem_singleton] at h'
            omega
      · exact (mem_manual_scene_breaks.mp (List.mem_filter.mp hfil).1).2.2.2
    · intro hg
      by_cases h10 : 10 ≤ gapAt xs i
      · have hic : i ∈ manual_chapter_breaks xs :=
          mem_manual_chapter_breaks.mpr ⟨h1, h2, h10⟩
        have hmf : i ∈ (consPairs 0 (manual_chapter_breaks xs ++ [xs.length])).map Prod.fst := by
          rw [consPairs_map_fst, ← List.cons_append, List.dropLast_concat]
          exact List.mem_cons_of_mem _ hic
        obtain ⟨q, hqm, hq1⟩ := List.mem_map.mp hmf
        refine List.mem_flatten.mpr ⟨_, List.mem_map_of_mem _ hqm, ?_⟩
        exact hq1 ▸ List.mem_cons_self _ _
      · have his : i ∈ manual_scene_breaks xs :=
          mem_manual_scene_breaks.mpr ⟨h1, h2, h10, hg⟩
        obtain ⟨q, hqm, hcov⟩ := consPairs_cover (manual_chapter_breaks xs ++ [xs.length]) 0 i
          (Nat.zero_le i) (by rw [List.getLast?_concat]; simpa using h2)
        refine List.mem_flatten.mpr ⟨_, List.mem_map_of_mem _ hqm, ?_⟩
        refine List.mem_cons_of_mem _ (List.mem_filter.mpr ⟨his, ?_⟩)
        simp only [decide_eq_true_eq]
        exact hcov

theorem manual_gap_thresholds_witness :
    1 ∈ chapterStartIdxs (apply_manual_template [mkSent 0 1 1, mkSent 11 12 2]) :=
  ((manual_gap_thresholds [mkSent 0 1 1, mkSent 11 12 2] 1 (by norm_num)
      (by norm_num)).1).mpr
    (by apply of_decide_eq_true; with_unfolding_all rfl)
